import Mathlib

/-!
Verification of the frame-deduplication and transcript-alignment core of
`ytcapture` (modules `ytcapture/dedup.py` and `ytcapture/markdown.py`),
as a shallow embedding in Lean 4.

Modelling conventions:
* A perceptual hash (`imagehash.ImageHash`, 8×8 pHash) is a 64-bit
  fingerprint, embedded as `Fin 64 → Bool`.
* Python floats are embedded as `ℚ`.  All float values the code compares
  (`distance / 64.0`, `1.0 - q`, thresholds) are dyadic rationals, on which
  Python float arithmetic and comparison are exact, so the embedding is
  faithful.
* `compute_phash` reads an image file and may raise; it is embedded as an
  environment `env : ℕ → Option Fingerprint` mapping a frame's path
  (an abstract file identifier) to its hash, `none` meaning the
  `except Exception` branch is taken.
* `deduplicate_frames` returns the kept list; the frames that reach the
  `elif delete_files:` branch (the classified duplicates, whose files are
  unlinked / whose `on_drop` effect fires) are returned as a second
  component so the side effect is observable.
-/

namespace YTCapture

/-- A 64-bit perceptual fingerprint (the 8×8 pHash of `dedup.compute_phash`). -/
def Fingerprint : Type := Fin 64 → Bool

/-- Hamming distance between two fingerprints: the number of differing bits.
Embeds `imagehash.ImageHash.__sub__` (`hash1 - hash2` in
`dedup.hash_similarity`), which counts the differing entries of the two
8×8 bit arrays. -/
def hammingDistance (hash1 hash2 : Fingerprint) : ℕ :=
  (List.finRange 64).countP (fun i => hash1 i != hash2 i)

/-- Embedding of `dedup.hash_similarity`:
`distance = hash1 - hash2; return 1.0 - (distance / 64.0)`. -/
def hash_similarity (hash1 hash2 : Fingerprint) : ℚ :=
  1 - (hammingDistance hash1 hash2 : ℚ) / 64

/-- Embedding of `frames.FrameInfo`: `path` is an abstract file identifier
(the `Path`), `timestamp` the frame's time in seconds. -/
structure FrameInfo where
  path : ℕ
  timestamp : ℚ
deriving DecidableEq

/-- Embedding of `transcript.TranscriptSegment`. -/
structure TranscriptSegment where
  text : String
  start : ℚ
  duration : ℚ
deriving DecidableEq

/-- The `for frame in frames:` loop of `dedup.deduplicate_frames`.
State: `prev` is the running `prev_hash`.  Returns
(kept frames, frames classified as duplicates).  Branches, in source order:
`except Exception` (keep, reset `prev_hash` to `None`);
`if prev_hash is None` (keep, set reference);
`if similarity < threshold` (keep, advance reference);
else the frame is a duplicate (reference unchanged, file deleted). -/
def dedupLoop (env : ℕ → Option Fingerprint) (threshold : ℚ) :
    Option Fingerprint → List FrameInfo → List FrameInfo × List FrameInfo
  | _, [] => ([], [])
  | prev, frame :: rest =>
    match env frame.path with
    | none =>
      let r := dedupLoop env threshold none rest
      (frame :: r.1, r.2)
    | some current =>
      match prev with
      | none =>
        let r := dedupLoop env threshold (some current) rest
        (frame :: r.1, r.2)
      | some ph =>
        if hash_similarity ph current < threshold then
          let r := dedupLoop env threshold (some current) rest
          (frame :: r.1, r.2)
        else
          let r := dedupLoop env threshold (some ph) rest
          (r.1, frame :: r.2)

/-- Embedding of `dedup.deduplicate_frames` (first component: the returned
`kept` list; second: the duplicates whose files are deleted when
`delete_files` is true).  The two guard clauses
`if not frames: return []` and `if len(frames) == 1: return frames`
return before any fingerprint computation. -/
def deduplicate_frames (env : ℕ → Option Fingerprint)
    (frames : List FrameInfo) (threshold : ℚ) :
    List FrameInfo × List FrameInfo :=
  match frames with
  | [] => ([], [])
  | [f] => ([f], [])
  | f :: g :: rest => dedupLoop env threshold none (f :: g :: rest)

/-- Modelled from the spec: the integrated-dedup entry points
`extract_frames_from_file` / `extract_frames_fast` (imported from
`ytcapture.frames` by `cli.py` with
`dedup_threshold=None if no_dedup else dedup_threshold`, but absent from the
source tree) accept an optional threshold.  Per §4.2 of the spec,
"`threshold = None` / disabled bypasses the entire algorithm — input
returned unchanged, and `on_drop` never called"; otherwise deduplication
runs with the given threshold. -/
def deduplicate (env : ℕ → Option Fingerprint)
    (frames : List FrameInfo) (threshold : Option ℚ) :
    List FrameInfo × List FrameInfo :=
  match threshold with
  | none => (frames, [])
  | some t => deduplicate_frames env frames t

/-- The `for i, frame in enumerate(frames):` loop of
`markdown.align_transcript_to_frames`: each frame is paired with the
segments whose `start` lies in `[frame.timestamp, next.timestamp)`, the
last window extending to `float('inf')`. -/
def alignGo (transcript : List TranscriptSegment) :
    List FrameInfo → List (FrameInfo × List TranscriptSegment)
  | [] => []
  | [frame] =>
    [(frame, transcript.filter (fun s => decide (frame.timestamp ≤ s.start)))]
  | frame :: next :: rest =>
    (frame, transcript.filter
        (fun s => decide (frame.timestamp ≤ s.start ∧ s.start < next.timestamp)))
      :: alignGo transcript (next :: rest)

/-- Embedding of `markdown.align_transcript_to_frames`.  `transcript` is
`Option` because the Python parameter is `list[TranscriptSegment] | None`;
`if not transcript:` treats `None` and `[]` alike. -/
def align_transcript_to_frames (transcript : Option (List TranscriptSegment)) :
    List FrameInfo → List (FrameInfo × List TranscriptSegment)
  | [] => []
  | f :: rest =>
    match transcript with
    | none => (f :: rest).map (fun fr => (fr, []))
    | some [] => (f :: rest).map (fun fr => (fr, []))
    | some ts => alignGo ts (f :: rest)

/-- Frames ordered by non-decreasing timestamp (the sortedness precondition
the callers uphold: kept frames come out of extraction in timestamp order). -/
def FramesSorted (frames : List FrameInfo) : Prop :=
  List.Pairwise (fun a b => a.timestamp ≤ b.timestamp) frames

instance : DecidablePred FramesSorted := fun _ =>
  inferInstanceAs (Decidable (List.Pairwise _ _))

/- ### Basic facts about the similarity estimator -/

lemma hammingDistance_le (hash1 hash2 : Fingerprint) :
    hammingDistance hash1 hash2 ≤ 64 := by
  have h := List.countP_le_length
    (p := fun i => hash1 i != hash2 i) (l := List.finRange 64)
  simpa [hammingDistance] using h

lemma hammingDistance_comm (hash1 hash2 : Fingerprint) :
    hammingDistance hash1 hash2 = hammingDistance hash2 hash1 := by
  unfold hammingDistance
  apply List.countP_congr
  intro i _
  cases h1 : hash1 i <;> cases h2 : hash2 i <;> simp [h1, h2]

lemma hammingDistance_self (hash : Fingerprint) :
    hammingDistance hash hash = 0 := by
  unfold hammingDistance
  simp

/-- C6: similarity is the normalized inverse Hamming distance
`1 - d/64`, lies in `[0,1]`, is symmetric, and is reflexive
(`hash_similarity fp fp = 1`).  The `1 - d/64` formula is line 36 of
`dedup.py` with `bit_length = 64` (8×8 hash). -/
theorem hash_similarity_spec :
    ∀ fp1 fp2 : Fingerprint,
      hash_similarity fp1 fp2
          = 1 - (hammingDistance fp1 fp2 : ℚ) / 64
        ∧ 0 ≤ hash_similarity fp1 fp2
        ∧ hash_similarity fp1 fp2 ≤ 1
        ∧ hash_similarity fp1 fp2 = hash_similarity fp2 fp1
        ∧ hash_similarity fp1 fp1 = 1 := by
  intro fp1 fp2
  have hle : (hammingDistance fp1 fp2 : ℚ) ≤ 64 := by
    exact_mod_cast hammingDistance_le fp1 fp2
  have hnn : (0 : ℚ) ≤ (hammingDistance fp1 fp2 : ℚ) := by positivity
  refine ⟨rfl, ?_, ?_, ?_, ?_⟩
  · unfold hash_similarity
    have : (hammingDistance fp1 fp2 : ℚ) / 64 ≤ 1 := by linarith
    linarith
  · unfold hash_similarity
    have : (0 : ℚ) ≤ (hammingDistance fp1 fp2 : ℚ) / 64 := by positivity
    linarith
  · unfold hash_similarity
    rw [hammingDistance_comm]
  · unfold hash_similarity
    rw [hammingDistance_self]
    norm_num

/-- C8: empty input yields empty output, and a single-element input is
returned unchanged for every threshold and every fingerprint environment —
in particular for environments in which every fingerprint computation
fails, since the `len(frames) == 1` guard returns before any fingerprinting
(a lone unreadable frame is still returned as-is). -/
theorem deduplicate_frames_trivial :
    (∀ (env : ℕ → Option Fingerprint) (t : ℚ),
        deduplicate_frames env [] t = ([], []))
      ∧ ∀ (env : ℕ → Option Fingerprint) (t : ℚ) (f : FrameInfo),
        deduplicate_frames env [f] t = ([f], []) := by
  exact ⟨fun _ _ => rfl, fun _ _ _ => rfl⟩

/-- C3: with `threshold = None` deduplication is bypassed entirely: the
input is returned unchanged and no frame is classified a duplicate, so the
per-drop side effect (`on_drop` / file deletion) never fires. -/
theorem deduplicate_none_bypass :
    ∀ (env : ℕ → Option Fingerprint) (frames : List FrameInfo),
      deduplicate env frames none = (frames, []) := by
  intro env frames
  rfl

/- ### Deduplicator: structural invariants -/

lemma dedupLoop_sublist (env : ℕ → Option Fingerprint) (t : ℚ) :
    ∀ (frames : List FrameInfo) (prev : Option Fingerprint),
      (dedupLoop env t prev frames).1.Sublist frames := by
  intro frames
  induction frames with
  | nil => intro prev; simp [dedupLoop]
  | cons f rest ih =>
    intro prev
    cases henv : env f.path with
    | none => simpa [dedupLoop, henv] using ih none
    | some cur =>
      cases prev with
      | none => simpa [dedupLoop, henv] using ih (some cur)
      | some ph =>
        by_cases hsim : hash_similarity ph cur < t
        · simpa [dedupLoop, henv, hsim] using ih (some cur)
        · simpa [dedupLoop, henv, hsim] using (ih (some ph)).cons f

/-- C7: the kept list is a sublist of the input (only input frames, each at
most once, in the original input order), and the first output frame is the
first input frame (in particular, the first frame of a non-empty input is
always kept). -/
theorem dedup_subsequence (env : ℕ → Option Fingerprint)
    (frames : List FrameInfo) (t : ℚ) :
    (deduplicate_frames env frames t).1.Sublist frames
      ∧ (deduplicate_frames env frames t).1.head? = frames.head? := by
  constructor
  · match frames with
    | [] => simp [deduplicate_frames]
    | [f] => simp [deduplicate_frames]
    | f :: g :: rest => exact dedupLoop_sublist env t (f :: g :: rest) none
  · match frames with
    | [] => rfl
    | [f] => rfl
    | f :: g :: rest =>
      cases henv : env f.path with
      | none => simp [deduplicate_frames, dedupLoop, henv]
      | some cur => simp [deduplicate_frames, dedupLoop, henv]

/-- C4: the comparison is against the last kept frame, not the last seen
frame: with `similarity(A,B) ≥ t`, `similarity(A,C) < t` and
`similarity(B,C) ≥ t`, the result is `([A, C], [B])` — B is dropped and C
is compared against kept A (had it been compared against dropped B it would
have been dropped too). -/
theorem dedup_compare_last_kept (env : ℕ → Option Fingerprint)
    (A B C : FrameInfo) (fa fb fc : Fingerprint) (t : ℚ)
    (hA : env A.path = some fa) (hB : env B.path = some fb)
    (hC : env C.path = some fc)
    (hAB : t ≤ hash_similarity fa fb) (hAC : hash_similarity fa fc < t)
    (_hBC : t ≤ hash_similarity fb fc) :
    deduplicate_frames env [A, B, C] t = ([A, C], [B]) := by
  have hAB' : ¬ hash_similarity fa fb < t := not_lt.mpr hAB
  simp [deduplicate_frames, dedupLoop, hA, hB, hC, hAB', hAC]

/-- C5: fail-open on fingerprint failure.  First conjunct: a frame whose
fingerprint computation fails is kept no matter what the running reference
is (regardless of similarity), and the reference is reset to `none`.
Second conjunct: consequently, when the next frame's fingerprint computes
successfully, it is kept unconditionally and its fingerprint becomes the
new reference.  The failure is absorbed: `dedupLoop` (and hence
`deduplicate_frames`) is a total function, so no fingerprint error escapes. -/
theorem dedup_fail_open (env : ℕ → Option Fingerprint) (t : ℚ)
    (prev : Option Fingerprint) (f g : FrameInfo) (rest : List FrameInfo)
    (fp : Fingerprint) (hf : env f.path = none) (hg : env g.path = some fp) :
    dedupLoop env t prev (f :: rest)
        = (f :: (dedupLoop env t none rest).1, (dedupLoop env t none rest).2)
      ∧ dedupLoop env t prev (f :: g :: rest)
        = (f :: g :: (dedupLoop env t (some fp) rest).1,
            (dedupLoop env t (some fp) rest).2) := by
  constructor <;> simp [dedupLoop, hf, hg]

/-- C2 (amended): a frame is classified a duplicate iff its similarity to
the reference is at least the threshold, so raising the threshold makes a
comparison *less* likely to drop: on a two-frame input, the higher
threshold keeps at least as many frames, the reverse of the claimed
direction.  (On longer inputs the greedy last-kept reference makes the kept
count non-monotone in the threshold in both directions.) -/
theorem dedup_two_frame_threshold_antitone (env : ℕ → Option Fingerprint)
    (A B : FrameInfo) (t1 t2 : ℚ) (h : t1 ≤ t2) :
    (deduplicate_frames env [A, B] t1).1.length
      ≤ (deduplicate_frames env [A, B] t2).1.length := by
  cases hA : env A.path with
  | none =>
    cases hB : env B.path <;> simp [deduplicate_frames, dedupLoop, hA, hB]
  | some a =>
    cases hB : env B.path with
    | none => simp [deduplicate_frames, dedupLoop, hA, hB]
    | some b =>
      by_cases h1 : hash_similarity a b < t1
      · have h2 : hash_similarity a b < t2 := lt_of_lt_of_le h1 h
        simp [deduplicate_frames, dedupLoop, hA, hB, h1, h2]
      · by_cases h2 : hash_similarity a b < t2 <;>
          simp [deduplicate_frames, dedupLoop, hA, hB, h1, h2]

/- ### Concrete inputs for witnesses and counterexamples -/

/-- All-zero fingerprint. -/
def fpZero : Fingerprint := fun _ => false

/-- Fingerprint with bits 0–9 set (Hamming distance 10 from `fpZero`). -/
def fpTen : Fingerprint := fun i => decide (i.val < 10)

/-- Fingerprint with bits 0–19 set (distance 20 from `fpZero`, 10 from
`fpTen`). -/
def fpTwenty : Fingerprint := fun i => decide (i.val < 20)

/-- Fingerprint with bits 0–31 set (distance 32 from `fpZero`, so
similarity exactly 1/2). -/
def fpHalf : Fingerprint := fun i => decide (i.val < 32)

def wA : FrameInfo := ⟨0, 0⟩
def wB : FrameInfo := ⟨1, 15⟩
def wC : FrameInfo := ⟨2, 30⟩

/-- Environment: every frame hashes to `fpZero`. -/
def wEnvA : ℕ → Option Fingerprint := fun _ => some fpZero

/-- Environment: frame 0 hashes to `fpZero`, every other to `fpHalf`. -/
def cexEnv : ℕ → Option Fingerprint :=
  fun p => if p = 0 then some fpZero else some fpHalf

/-- Environment realizing the P3 scenario: distances
d(0,1) = 10, d(0,2) = 20, d(1,2) = 10. -/
def envP3 : ℕ → Option Fingerprint :=
  fun p => if p = 0 then some fpZero else
    if p = 1 then some fpTen else some fpTwenty

/-- Environment: frame 0's fingerprint computation fails, all others hash
to `fpZero`. -/
def envFail : ℕ → Option Fingerprint :=
  fun p => if p = 0 then none else some fpZero

lemma hs_zero_half : hash_similarity fpZero fpHalf = 1/2 := by
  have hd : hammingDistance fpZero fpHalf = 32 := by decide
  unfold hash_similarity
  rw [hd]
  norm_num

lemma hs_zero_ten : hash_similarity fpZero fpTen = 27/32 := by
  have hd : hammingDistance fpZero fpTen = 10 := by decide
  unfold hash_similarity
  rw [hd]
  norm_num

lemma hs_zero_twenty : hash_similarity fpZero fpTwenty = 11/16 := by
  have hd : hammingDistance fpZero fpTwenty = 20 := by decide
  unfold hash_similarity
  rw [hd]
  norm_num

lemma hs_ten_twenty : hash_similarity fpTen fpTwenty = 27/32 := by
  have hd : hammingDistance fpTen fpTwenty = 10 := by decide
  unfold hash_similarity
  rw [hd]
  norm_num

/-- C2 counterexample: two frames with similarity 1/2; at the lower
threshold 2/5 the second frame is removed, at the higher threshold 3/5 it
is kept — the higher threshold removes strictly fewer frames, refuting
"higher threshold removes at least as many". -/
theorem dedup_threshold_monotone_cex :
    ¬ ((deduplicate_frames cexEnv [wA, wB] (3/5)).1.length
        ≤ (deduplicate_frames cexEnv [wA, wB] (2/5)).1.length) := by
  have h1 : ¬ (hash_similarity fpZero fpHalf < 2/5) := by
    rw [hs_zero_half]; norm_num
  have h2 : hash_similarity fpZero fpHalf < 3/5 := by
    rw [hs_zero_half]; norm_num
  simp [deduplicate_frames, dedupLoop, cexEnv, wA, wB, h1, h2]

/-- Witness for `dedup_two_frame_threshold_antitone` at thresholds
2/5 ≤ 3/5. -/
theorem dedup_two_frame_threshold_antitone_witness :
    (deduplicate_frames cexEnv [wA, wB] (2/5)).1.length
      ≤ (deduplicate_frames cexEnv [wA, wB] (3/5)).1.length :=
  dedup_two_frame_threshold_antitone cexEnv wA wB (2/5) (3/5) (by norm_num)

/-- Witness for `dedup_compare_last_kept`: similarities 54/64, 44/64,
54/64 against threshold 3/4. -/
theorem dedup_compare_last_kept_witness :
    deduplicate_frames envP3 [wA, wB, wC] (3/4) = ([wA, wC], [wB]) :=
  dedup_compare_last_kept envP3 wA wB wC fpZero fpTen fpTwenty (3/4)
    rfl rfl rfl
    (by rw [hs_zero_ten]; norm_num)
    (by rw [hs_zero_twenty]; norm_num)
    (by rw [hs_ten_twenty]; norm_num)

/-- Witness for `dedup_fail_open`: frame 0 unreadable, frame 1 readable. -/
theorem dedup_fail_open_witness :
    dedupLoop envFail (9/10) (some fpTen) (wA :: [])
        = (wA :: (dedupLoop envFail (9/10) none []).1,
            (dedupLoop envFail (9/10) none []).2)
      ∧ dedupLoop envFail (9/10) (some fpTen) (wA :: wB :: [])
        = (wA :: wB :: (dedupLoop envFail (9/10) (some fpZero) []).1,
            (dedupLoop envFail (9/10) (some fpZero) []).2) :=
  dedup_fail_open envFail (9/10) (some fpTen) wA wB [] fpZero rfl rfl

/- ### Transcript aligner -/

lemma alignGo_map_fst (ts : List TranscriptSegment) :
    ∀ frames, (alignGo ts frames).map Prod.fst = frames := by
  intro frames
  induction frames with
  | nil => rfl
  | cons f rest ih =>
    cases rest with
    | nil => rfl
    | cons n rs => simp only [alignGo, List.map_cons, List.cons.injEq,
        true_and]; simpa using ih

lemma alignGo_mem (ts : List TranscriptSegment) :
    ∀ (frames : List FrameInfo) (g : FrameInfo × List TranscriptSegment),
      g ∈ alignGo ts frames →
        g.1 ∈ frames ∧ g.2.Sublist ts ∧ ∀ s ∈ g.2, g.1.timestamp ≤ s.start := by
  intro frames
  induction frames with
  | nil => intro g hg; simp [alignGo] at hg
  | cons f rest ih =>
    cases rest with
    | nil =>
      intro g hg
      simp only [alignGo, List.mem_singleton] at hg
      subst hg
      refine ⟨by simp, List.filter_sublist ts, ?_⟩
      intro s hs
      have hp := List.of_mem_filter hs
      simpa using hp
    | cons n rs =>
      intro g hg
      simp only [alignGo, List.mem_cons] at hg
      rcases hg with rfl | hg
      · refine ⟨by simp, List.filter_sublist ts, ?_⟩
        intro s hs
        have hp := List.of_mem_filter hs
        simp only [decide_eq_true_eq] at hp
        exact hp.1
      · obtain ⟨h1, h2, h3⟩ := ih g hg
        exact ⟨List.mem_cons_of_mem f h1, h2, h3⟩

lemma alignGo_countP_zero (ts : List TranscriptSegment) (s : TranscriptSegment)
    (frames : List FrameInfo)
    (hall : ∀ f ∈ frames, ¬ f.timestamp ≤ s.start) :
    (alignGo ts frames).countP (fun g => decide (s ∈ g.2)) = 0 := by
  rw [List.countP_eq_zero]
  intro g hg
  simp only [decide_eq_true_eq]
  intro hs
  obtain ⟨hf, _, hle⟩ := alignGo_mem ts frames g hg
  exact hall g.1 hf (hle s hs)

lemma alignGo_countP_one (ts : List TranscriptSegment) (s : TranscriptSegment)
    (hs : s ∈ ts) :
    ∀ (f : FrameInfo) (rest : List FrameInfo), FramesSorted (f :: rest) →
      f.timestamp ≤ s.start →
      (alignGo ts (f :: rest)).countP (fun g => decide (s ∈ g.2)) = 1 := by
  intro f rest
  induction rest generalizing f with
  | nil =>
    intro _ hle
    have hmem : s ∈ ts.filter (fun x => decide (f.timestamp ≤ x.start)) :=
      List.mem_filter.mpr ⟨hs, by simpa using hle⟩
    simp [alignGo, List.countP_cons, hmem]
  | cons n rs ih =>
    intro hsort hle
    by_cases hn : s.start < n.timestamp
    · have hz : (alignGo ts (n :: rs)).countP (fun g => decide (s ∈ g.2)) = 0 := by
        apply alignGo_countP_zero
        intro fr hfr
        have hge : n.timestamp ≤ fr.timestamp := by
          rcases List.mem_cons.mp hfr with rfl | hmem
          · exact le_refl _
          · exact List.rel_of_pairwise_cons (hsort.of_cons) hmem
        intro hcon
        exact absurd (le_trans hge hcon) (not_le.mpr hn)
      have hmem : s ∈ ts.filter
          (fun x => decide (f.timestamp ≤ x.start ∧ x.start < n.timestamp)) :=
        List.mem_filter.mpr ⟨hs, by simp [hle, hn]⟩
      simp only [alignGo, List.countP_cons, hz]
      simp [hmem]
      exact ⟨hs, hle, hn⟩
    · push_neg at hn
      have hrec := ih n hsort.of_cons hn
      have hnot : s ∉ ts.filter
          (fun x => decide (f.timestamp ≤ x.start ∧ x.start < n.timestamp)) := by
        intro hmem
        have hp := List.of_mem_filter hmem
        simp only [decide_eq_true_eq] at hp
        exact absurd hp.2 (not_lt.mpr hn)
      simp only [alignGo, List.countP_cons, hrec]
      simp [hnot]
      exact fun _ _ => hn

lemma countP_start_split (ts : List TranscriptSegment) (a b : ℚ) (hab : a ≤ b) :
    ts.countP (fun s => decide (a ≤ s.start))
      = ts.countP (fun s => decide (a ≤ s.start ∧ s.start < b))
        + ts.countP (fun s => decide (b ≤ s.start)) := by
  induction ts with
  | nil => simp
  | cons s rest ih =>
    simp only [List.countP_cons]
    by_cases h1 : a ≤ s.start
    · by_cases h2 : b ≤ s.start
      · have h3 : ¬ s.start < b := not_lt.mpr h2
        simp [h1, h2, h3, ih]
        omega
      · have h3 : s.start < b := lt_of_not_ge h2
        simp [h1, h2, h3, ih]
        omega
    · have h2 : ¬ b ≤ s.start := fun hb => h1 (le_trans hab hb)
      simp [h1, h2, ih]

lemma alignGo_sum (ts : List TranscriptSegment) :
    ∀ (f : FrameInfo) (rest : List FrameInfo), FramesSorted (f :: rest) →
      ((alignGo ts (f :: rest)).map (fun g => g.2.length)).sum
        = ts.countP (fun s => decide (f.timestamp ≤ s.start)) := by
  intro f rest
  induction rest generalizing f with
  | nil =>
    intro _
    simp [alignGo, List.countP_eq_length_filter]
  | cons n rs ih =>
    intro hsort
    have hfn : f.timestamp ≤ n.timestamp :=
      List.rel_of_pairwise_cons hsort (List.mem_cons_self n rs)
    have ht := ih n hsort.of_cons
    simp only [alignGo, List.map_cons, List.sum_cons]
    rw [ht, countP_start_split ts f.timestamp n.timestamp hfn]
    simp [List.countP_eq_length_filter]

/- ### Alignment claims -/

def wF10 : FrameInfo := ⟨0, 10⟩
def wF30 : FrameInfo := ⟨1, 30⟩
def wSegA : TranscriptSegment := ⟨"a", 5, 1⟩
def wSegB : TranscriptSegment := ⟨"b", 20, 1⟩
def wSegC : TranscriptSegment := ⟨"c", 50, 1⟩
def wTs : List TranscriptSegment := [wSegA, wSegB, wSegC]

/-- C9: alignment shape.  Empty frames give an empty result for every
transcript; an absent (`None`) or empty transcript gives one group per
frame with an empty segment list; and in every case the sequence of group
frames is exactly the input frame sequence (so there are as many groups as
frames, the i-th group holding the i-th frame). -/
theorem align_shape :
    (∀ ts, align_transcript_to_frames ts [] = [])
      ∧ (∀ frames, align_transcript_to_frames none frames
            = frames.map (fun fr => (fr, ([] : List TranscriptSegment))))
      ∧ (∀ frames, align_transcript_to_frames (some []) frames
            = frames.map (fun fr => (fr, ([] : List TranscriptSegment))))
      ∧ ∀ ts frames, (align_transcript_to_frames ts frames).map Prod.fst = frames := by
  refine ⟨fun ts => rfl, ?_, ?_, ?_⟩
  · intro frames; cases frames <;> rfl
  · intro frames; cases frames <;> rfl
  · intro ts frames
    cases frames with
    | nil => rfl
    | cons f rest =>
      match ts with
      | none => simp [align_transcript_to_frames, Function.comp_def]
      | some [] => simp [align_transcript_to_frames, Function.comp_def]
      | some (s :: ts0) =>
        simpa [align_transcript_to_frames] using alignGo_map_fst (s :: ts0) (f :: rest)

/-- C1 counterexample: one frame at t = 10 and one (trivially sorted)
segment starting at t = 5.  The segment precedes the first frame's window,
so it lands in no group: the groups' sizes sum to 0, not to the number of
segments. -/
theorem align_completeness_cex :
    FramesSorted [wF10]
      ∧ ((align_transcript_to_frames (some [wSegA]) [wF10]).map
          (fun g => g.2.length)).sum ≠ [wSegA].length := by
  constructor
  · simp [FramesSorted]
  · decide

/-- C1 (amended): for sorted non-empty frames, every segment whose start is
at or after the first frame's timestamp lies in exactly one group, and the
group sizes sum to the number of such segments — segments starting before
the first frame are in no group and are not counted.  (Proved for every
transcript list, in particular the sorted ones of the claim.) -/
theorem align_completeness_amended (ts : List TranscriptSegment)
    (f : FrameInfo) (rest : List FrameInfo) (hsort : FramesSorted (f :: rest)) :
    ((align_transcript_to_frames (some ts) (f :: rest)).map
        (fun g => g.2.length)).sum
      = ts.countP (fun s => decide (f.timestamp ≤ s.start))
    ∧ ∀ s ∈ ts, f.timestamp ≤ s.start →
        (align_transcript_to_frames (some ts) (f :: rest)).countP
          (fun g => decide (s ∈ g.2)) = 1 := by
  cases ts with
  | nil =>
    constructor
    · have hz : ∀ (l : List FrameInfo),
          ((l.map (fun fr => (fr, ([] : List TranscriptSegment)))).map
            (fun g => g.2.length)).sum = 0 := by
        intro l; induction l with
        | nil => rfl
        | cons a t ih => simpa using ih
      simpa [align_transcript_to_frames] using hz (f :: rest)
    · intro s hs; cases hs
  | cons s0 ts0 =>
    constructor
    · exact alignGo_sum (s0 :: ts0) f rest hsort
    · intro s hsmem hle
      exact alignGo_countP_one (s0 :: ts0) s hsmem f rest hsort hle

/-- Witness for `align_completeness_amended`: Scenario C — frames at 0 and
30, segments starting at 5, 20, 50. -/
theorem align_completeness_amended_witness :
    ((align_transcript_to_frames (some wTs) (wA :: [wF30])).map
        (fun g => g.2.length)).sum
      = wTs.countP (fun s => decide (wA.timestamp ≤ s.start))
    ∧ (align_transcript_to_frames (some wTs) (wA :: [wF30])).countP
        (fun g => decide (wSegC ∈ g.2)) = 1 :=
  ⟨(align_completeness_amended wTs wA [wF30] (by decide)).1,
   (align_completeness_amended wTs wA [wF30] (by decide)).2 wSegC (by decide)
     (by decide)⟩

/-- C10: with sorted frames, a segment starting strictly before the first
frame's timestamp is placed in no group, and each group's segment list is a
sublist of the input transcript (selected segments keep their original
input order). -/
theorem align_pre_first_and_order (ts : List TranscriptSegment)
    (f : FrameInfo) (rest : List FrameInfo) (hsort : FramesSorted (f :: rest)) :
    (∀ s ∈ ts, s.start < f.timestamp →
        ∀ g ∈ align_transcript_to_frames (some ts) (f :: rest), s ∉ g.2)
      ∧ ∀ g ∈ align_transcript_to_frames (some ts) (f :: rest),
          g.2.Sublist ts := by
  cases ts with
  | nil =>
    constructor
    · intro s hs; cases hs
    · intro g hg
      rw [show align_transcript_to_frames (some []) (f :: rest)
            = (f :: rest).map (fun fr => (fr, [])) from rfl,
        List.mem_map] at hg
      obtain ⟨fr, _, rfl⟩ := hg
      simp
  | cons s0 ts0 =>
    constructor
    · intro s hsmem hlt g hg hsg
      obtain ⟨hf, _, hle⟩ := alignGo_mem (s0 :: ts0) (f :: rest) g hg
      have hfg : f.timestamp ≤ g.1.timestamp := by
        rcases List.mem_cons.mp hf with heq | hmem
        · rw [heq]
        · exact List.rel_of_pairwise_cons hsort hmem
      have hsl := hle s hsg
      linarith
    · intro g hg
      exact (alignGo_mem (s0 :: ts0) (f :: rest) g hg).2.1

/-- The first group produced on `[wF10, wF30]` with transcript `wTs`:
window `[10, 30)` holds exactly the segment starting at 20. -/
def wG0 : FrameInfo × List TranscriptSegment := (wF10, [wSegB])

/-- Witness for `align_pre_first_and_order`: the segment starting at 5
is not in the first group of frames at 10 and 30, and that group's
segments form a sublist of the transcript. -/
theorem align_pre_first_and_order_witness :
    wSegA ∉ wG0.2 ∧ wG0.2.Sublist wTs :=
  ⟨(align_pre_first_and_order wTs wF10 [wF30] (by decide)).1 wSegA (by decide)
      (by decide) wG0 (by decide),
   (align_pre_first_and_order wTs wF10 [wF30] (by decide)).2 wG0 (by decide)⟩

end YTCapture
